import Mathlib

/-!
Verification of the HRTF data subsystem (hrtf.cpp) against its
natural-language specification.

The C++ code is shallowly embedded: IEEE floats are modelled as exact
rationals, C arrays as total functions or lists, byte streams as lists of
naturals, and fallible parsing as `Option`.  Each definition mirrors the
corresponding function of the source; a few constants that live in headers
outside the given sources (`hrtf.h`, `alnumeric.h`, `math_defs.h`) are
modelled from the spec and documented as such.
-/

namespace Hrtf

/-- Data set limit from hrtf.cpp: minimum HRIR length. -/
def MIN_IR_SIZE : ℕ := 8

/-- Data set limit from hrtf.cpp: maximum HRIR length. -/
def MAX_IR_SIZE : ℕ := 512

/-- Data set limit from hrtf.cpp: the HRIR length must be a multiple of this. -/
def MOD_IR_SIZE : ℕ := 2

/-- Data set limit from hrtf.cpp: minimum field-depth count. -/
def MIN_FD_COUNT : ℕ := 1

/-- Data set limit from hrtf.cpp: maximum field-depth count. -/
def MAX_FD_COUNT : ℕ := 16

/-- Data set limit from hrtf.cpp: minimum field distance in millimetres. -/
def MIN_FD_DISTANCE : ℕ := 50

/-- Data set limit from hrtf.cpp: maximum field distance in millimetres. -/
def MAX_FD_DISTANCE : ℕ := 2500

/-- Data set limit from hrtf.cpp: minimum elevation count per field. -/
def MIN_EV_COUNT : ℕ := 5

/-- Data set limit from hrtf.cpp: maximum elevation count per field. -/
def MAX_EV_COUNT : ℕ := 181

/-- Data set limit from hrtf.cpp: minimum azimuth count per elevation. -/
def MIN_AZ_COUNT : ℕ := 1

/-- Data set limit from hrtf.cpp: maximum azimuth count per elevation. -/
def MAX_AZ_COUNT : ℕ := 255

/-- Modelled from the spec: HRTF_HISTORY_LENGTH is an implementation constant
declared in hrtf.h, which is not among the given sources.  The spec requires
`MAX_HRIR_DELAY = HRTF_HISTORY_LENGTH - 1` and the static assertion
`MAX_HRIR_DELAY * HRIR_DELAY_FRACONE < 256`, which this value satisfies. -/
def HRTF_HISTORY_LENGTH : ℕ := 64

/-- Maximum integer HRIR delay in samples, from hrtf.cpp. -/
def MAX_HRIR_DELAY : ℕ := HRTF_HISTORY_LENGTH - 1

/-- Fixed-point fractional bits for HRIR delays, from hrtf.cpp. -/
def HRIR_DELAY_FRACBITS : ℕ := 2

/-- One sample in fixed-point delay units, from hrtf.cpp. -/
def HRIR_DELAY_FRACONE : ℕ := 1 <<< HRIR_DELAY_FRACBITS

/-- Rounding bias for fixed-point delays, from hrtf.cpp. -/
def HRIR_DELAY_FRACHALF : ℕ := HRIR_DELAY_FRACONE >>> 1

/-- Modelled from the spec: HRIR_LENGTH is an implementation constant from
hrtf.h, which is not among the given sources; the spec requires it to be an
upper bound on the IR length, at least MAX_IR_SIZE. -/
def HRIR_LENGTH : ℕ := 1024

/-- First value for pass-through coefficients, from hrtf.cpp
(`0.707106781187f`, i.e. sqrt(0.5); the literal is modelled exactly as the
decimal it is written as). -/
def PassthruCoeff : ℚ := 707106781187 / 1000000000000

/-- Modelled from the spec: the single-precision value of pi used by
`al::MathDefs<float>::Pi()` (math_defs.h is not among the given sources).
This is the rational value of the float nearest to pi. -/
def piF : ℚ := 13176795 / 4194304

/-- Modelled from the spec: the single-precision value of 2*pi used by
`al::MathDefs<float>::Tau()`; doubling is exact in floating point. -/
def tauF : ℚ := 2 * piF

/-- Modelled from the spec: `float2uint` (alnumeric.h is not among the given
sources) converts a float to an unsigned integer; the spec specifies the
floor / truncation convention for non-negative inputs. -/
def float2uint (x : ℚ) : ℕ := ⌊x⌋.toNat

/-- Modelled from the spec: `fastf2u` (alnumeric.h is not among the given
sources); the spec states the point-source delay output "rounds down to
integer samples", i.e. floor. -/
def fastf2u (x : ℚ) : ℕ := ⌊x⌋.toNat

/-- Index plus blend factor, mirroring `struct IdxBlend` of hrtf.cpp. -/
structure IdxBlend where
  idx : ℕ
  blend : ℚ

/-- Elevation index and blend for a polar elevation, mirroring `CalcEvIndex`:
`ev = (pi*0.5 + ev) * (evcount-1) / pi`, index clamped to `evcount-1`. -/
def CalcEvIndex (evcount : ℕ) (ev : ℚ) : IdxBlend :=
  let x := (piF * (1/2) + ev) * ((evcount - 1 : ℕ) : ℚ) / piF
  let idx := float2uint x
  ⟨min idx (evcount - 1), x - (idx : ℚ)⟩

/-- Azimuth index and blend for a polar azimuth, mirroring `CalcAzIndex`:
`az = (tau + az) * azcount / tau`, index reduced mod `azcount`. -/
def CalcAzIndex (azcount : ℕ) (az : ℚ) : IdxBlend :=
  let x := (tauF + az) * (azcount : ℚ) / tauF
  let idx := float2uint x
  ⟨idx % azcount, x - (idx : ℚ)⟩

/-- In-memory HRTF store, mirroring `struct HrtfStore` of hrtf.h as used by
hrtf.cpp.  Arrays are total functions from indices; `coeffs i p` is the
flat float array `&coeffs[i][0][0]` of IR `i` (`p = 2*j + c` interleaves the
two channels, as the source iterates it); `delays i` is the pair of
fixed-point delay bytes of IR `i`. -/
structure HrtfStore where
  sampleRate : ℕ
  irSize : ℕ
  fdCount : ℕ
  fieldDistance : ℕ → ℚ
  fieldEvCount : ℕ → ℕ
  elevAzCount : ℕ → ℕ
  elevIrOffset : ℕ → ℕ
  coeffs : ℕ → ℕ → ℚ
  delays : ℕ → ℕ × ℕ

/-- Field-selection walk of `GetHrtfCoeffs`: advance while
`distance < field->distance` and the field is not the last one, accumulating
`ebase += field->evCount`.  The fuel argument is called with `fdCount`,
which bounds the number of iterations of the source loop. -/
def fieldWalkAux (s : HrtfStore) (distance : ℚ) : ℕ → ℕ → ℕ → ℕ × ℕ
  | 0, i, ebase => (i, ebase)
  | fuel + 1, i, ebase =>
    if i < s.fdCount - 1 ∧ distance < s.fieldDistance i then
      fieldWalkAux s distance fuel (i + 1) (ebase + s.fieldEvCount i)
    else (i, ebase)

/-- Field index and elevation-table base selected by `GetHrtfCoeffs` for a
query distance. -/
def fieldWalk (s : HrtfStore) (distance : ℚ) : ℕ × ℕ :=
  fieldWalkAux s distance s.fdCount 0 0

/-- The four corner HRIR indices and bilinear blend weights computed by
`GetHrtfCoeffs` (hrtf.cpp lines 218-255). -/
structure BlendState where
  idx0 : ℕ
  idx1 : ℕ
  idx2 : ℕ
  idx3 : ℕ
  blend0 : ℚ
  blend1 : ℚ
  blend2 : ℚ
  blend3 : ℚ
  dirfact : ℚ

/-- Corner-index and blend-weight computation of `GetHrtfCoeffs`. -/
def hrtfBlend (s : HrtfStore) (elevation azimuth distance spread : ℚ) :
    BlendState :=
  let dirfact : ℚ := 1 - spread / tauF
  let fw := fieldWalk s distance
  let ebase := fw.2
  let evcount := s.fieldEvCount fw.1
  let elev0 := CalcEvIndex evcount elevation
  let elev1idx := min (elev0.idx + 1) (evcount - 1)
  let ir0offset := s.elevIrOffset (ebase + elev0.idx)
  let ir1offset := s.elevIrOffset (ebase + elev1idx)
  let az0 := CalcAzIndex (s.elevAzCount (ebase + elev0.idx)) azimuth
  let az1 := CalcAzIndex (s.elevAzCount (ebase + elev1idx)) azimuth
  { idx0 := ir0offset + az0.idx
    idx1 := ir0offset + ((az0.idx + 1) % s.elevAzCount (ebase + elev0.idx))
    idx2 := ir1offset + az1.idx
    idx3 := ir1offset + ((az1.idx + 1) % s.elevAzCount (ebase + elev1idx))
    blend0 := (1 - elev0.blend) * (1 - az0.blend) * dirfact
    blend1 := (1 - elev0.blend) * az0.blend * dirfact
    blend2 := elev0.blend * (1 - az1.blend) * dirfact
    blend3 := elev0.blend * az1.blend * dirfact
    dirfact := dirfact }

/-- Output of `GetHrtfCoeffs`: the flat coefficient array (interleaved
stereo, `p = 2*j + c`) and the two integer delays. -/
structure HrtfCoeffsOut where
  coeffs : ℕ → ℚ
  delay0 : ℕ
  delay1 : ℕ

/-- One round of the coefficient-accumulation loop of `GetHrtfCoeffs`
(`std::transform` over `irSize*2` floats with `src*mult + coeff`). -/
def blendStep (irSize : ℕ) (src : ℕ → ℚ) (mult : ℚ) (out : ℕ → ℚ) : ℕ → ℚ :=
  fun p => if p < irSize * 2 then src p * mult + out p else out p

/-- Shallow embedding of `GetHrtfCoeffs` (hrtf.cpp lines 215-281).  Note the
fourth term of the second-channel delay sum scales `delays[idx[3]][1]` by
`blend[1]`, exactly as the source does on line 262. -/
def GetHrtfCoeffs (s : HrtfStore) (elevation azimuth distance spread : ℚ) :
    HrtfCoeffsOut :=
  let b := hrtfBlend s elevation azimuth distance spread
  let d0 : ℚ := ((s.delays b.idx0).1 : ℚ) * b.blend0 +
    ((s.delays b.idx1).1 : ℚ) * b.blend1 +
    ((s.delays b.idx2).1 : ℚ) * b.blend2 +
    ((s.delays b.idx3).1 : ℚ) * b.blend3
  let delay0 := fastf2u (d0 * (1 / (HRIR_DELAY_FRACONE : ℚ)))
  let d1 : ℚ := ((s.delays b.idx0).2 : ℚ) * b.blend0 +
    ((s.delays b.idx1).2 : ℚ) * b.blend1 +
    ((s.delays b.idx2).2 : ℚ) * b.blend2 +
    ((s.delays b.idx3).2 : ℚ) * b.blend1
  let delay1 := fastf2u (d1 * (1 / (HRIR_DELAY_FRACONE : ℚ)))
  let init : ℕ → ℚ := fun p => if p < 2 then PassthruCoeff * (1 - b.dirfact) else 0
  let c0 := blendStep s.irSize (s.coeffs b.idx0) b.blend0 init
  let c1 := blendStep s.irSize (s.coeffs b.idx1) b.blend1 c0
  let c2 := blendStep s.irSize (s.coeffs b.idx2) b.blend2 c1
  let c3 := blendStep s.irSize (s.coeffs b.idx3) b.blend3 c2
  ⟨c3, delay0, delay1⟩

/-- The delay computation as the claim states it: for each channel the floor
of the weighted sum over all four corners with weight `blend[k]` on
`delays[idx[k]]`. -/
def claimedDelays (s : HrtfStore) (elevation azimuth distance spread : ℚ) :
    ℕ × ℕ :=
  let b := hrtfBlend s elevation azimuth distance spread
  let d0 : ℚ := ((s.delays b.idx0).1 : ℚ) * b.blend0 +
    ((s.delays b.idx1).1 : ℚ) * b.blend1 +
    ((s.delays b.idx2).1 : ℚ) * b.blend2 +
    ((s.delays b.idx3).1 : ℚ) * b.blend3
  let d1 : ℚ := ((s.delays b.idx0).2 : ℚ) * b.blend0 +
    ((s.delays b.idx1).2 : ℚ) * b.blend1 +
    ((s.delays b.idx2).2 : ℚ) * b.blend2 +
    ((s.delays b.idx3).2 : ℚ) * b.blend3
  (fastf2u (d0 * (1 / (HRIR_DELAY_FRACONE : ℚ))),
   fastf2u (d1 * (1 / (HRIR_DELAY_FRACONE : ℚ))))

/-- Concrete single-field store exercising the right-ear delay computation:
five elevations with azimuth counts 4, 2, 2, 2, 2, IR offsets 0, 4, 6, 8, 10;
all delays are zero except the second channel of IR 5. -/
def exStoreC1 : HrtfStore where
  sampleRate := 44100
  irSize := 8
  fdCount := 1
  fieldDistance := fun _ => 0
  fieldEvCount := fun _ => 5
  elevAzCount := fun i => if i = 0 then 4 else 2
  elevIrOffset := fun i => [0, 4, 6, 8, 10].getD i 0
  coeffs := fun _ _ => 0
  delays := fun i => if i = 5 then (0, 252) else (0, 0)

/-- The same store with every fixed-point delay equal to the maximum legal
value `MAX_HRIR_DELAY * HRIR_DELAY_FRACONE = 252`. -/
def exStoreC10 : HrtfStore :=
  { exStoreC1 with delays := fun _ => (252, 252) }

/-- Reduced store record used by the loader cache and by the sample-rate
conditioner of `GetLoadedHrtf`.  `irCount` is the total IR count the source
derives from the last elevation's offset and azimuth count; `ref` is the
atomic reference count `mRef`.  The coefficient array is resampled through
the external polyphase resampler (a black-box collaborator per the spec) and
plays no part in the claims about this path, so it is not carried here. -/
structure StoreM where
  sampleRate : ℕ
  irSize : ℕ
  irCount : ℕ
  delays : ℕ → ℕ × ℕ
  ref : ℕ

/-- Per-delay rescale of `GetLoadedHrtf` (hrtf.cpp lines 1383-1385):
`minu64(MAX_HRIR_DELAY*HRIR_DELAY_FRACONE, (uint64{delay}*devrate + srate/2) / srate)`,
with the u64 arithmetic modelled on `Nat`. -/
def rescaleDelayCode (delay devrate srate : ℕ) : ℕ :=
  min (MAX_HRIR_DELAY * HRIR_DELAY_FRACONE) ((delay * devrate + srate / 2) / srate)

/-- IR-size rescale of `GetLoadedHrtf` (hrtf.cpp lines 1391-1393):
`newIrSize = (uint64{irSize}*devrate + srate-1) / srate;`
`newIrSize = minu64(HRIR_LENGTH, newIrSize) + (MOD_IR_SIZE-1);`
`irSize = newIrSize - newIrSize%MOD_IR_SIZE`. -/
def rescaleIrSizeCode (irSize devrate srate : ℕ) : ℕ :=
  let newIrSize := (irSize * devrate + (srate - 1)) / srate
  let newIrSize2 := min HRIR_LENGTH newIrSize + (MOD_IR_SIZE - 1)
  newIrSize2 - newIrSize2 % MOD_IR_SIZE

/-- Sample-rate conditioning block of `GetLoadedHrtf` (hrtf.cpp lines
1353-1395): when the file rate differs from the device rate, every stored
delay of every IR is rescaled, the IR size is rescaled, and the stored
sample rate becomes the device rate. -/
def conditionStore (st : StoreM) (devrate : ℕ) : StoreM :=
  if st.sampleRate ≠ devrate then
    { st with
      delays := fun i =>
        if i < st.irCount then
          (rescaleDelayCode (st.delays i).1 devrate st.sampleRate,
           rescaleDelayCode (st.delays i).2 devrate st.sampleRate)
        else st.delays i
      irSize := rescaleIrSizeCode st.irSize devrate st.sampleRate
      sampleRate := devrate }
  else st

/-- Round a rational to the nearest natural number (halves rounding up);
used to state the spec's `round((delay_old * devrate) / srate)`. -/
def roundNearest (x : ℚ) : ℕ := ⌊x + 1 / 2⌋₊

/-- Round `m` up to the next multiple of `n`; used to state the spec's
"round up to a multiple of MOD_IR_SIZE". -/
def roundUpMultiple (n m : ℕ) : ℕ := (m + n - 1) / n * n

/-- Cache slot, mirroring `struct LoadedHrtf` of hrtf.cpp: a filename and an
owning (possibly null) store pointer. -/
structure LoadedHrtf where
  mFilename : List Char
  mEntry : Option StoreM

/-- Predicate of the `remove_unused` lambda in `HrtfStore::DecRef`: the slot
holds a store whose reference count reads zero. -/
def removeUnused (h : LoadedHrtf) : Bool :=
  match h.mEntry with
  | some st => st.ref == 0
  | none => false

/-- Net effect of `std::remove_if` followed by `erase` in `HrtfStore::DecRef`
(hrtf.cpp lines 1440-1441): a single pass dropping every slot whose store
reads a zero reference count. -/
def sweepLoadedHrtfs : List LoadedHrtf → List LoadedHrtf
  | [] => []
  | h :: t => if removeUnused h then sweepLoadedHrtfs t else h :: sweepLoadedHrtfs t

/-- Shallow embedding of `HrtfStore::DecRef` (hrtf.cpp lines 1420-1443):
decrement the reference count; when the new count is zero, sweep the cache. -/
def DecRef (ref : ℕ) (cache : List LoadedHrtf) : ℕ × List LoadedHrtf :=
  let ref2 := ref - 1
  (ref2, if ref2 = 0 then sweepLoadedHrtfs cache else cache)

/-- Concrete store for the conditioner witnesses: a V1-style file at
22050 Hz with `irSize = 8` and two IRs. -/
def exStoreC6 : StoreM where
  sampleRate := 22050
  irSize := 8
  irCount := 2
  delays := fun i => (if i = 0 then 5 else 10, 3)
  ref := 1

/-- Concrete cache for the DecRef witness: one zero-reference store, one
live store, one empty slot. -/
def exCacheC9 : List LoadedHrtf :=
  [⟨['a'], some ⟨44100, 8, 1, fun _ => (0, 0), 0⟩⟩,
   ⟨['b'], some ⟨44100, 8, 1, fun _ => (0, 0), 2⟩⟩,
   ⟨['c'], none⟩]


/-- Data set view for the left-to-right mirroring loops of the three
loaders: `coeff m` is the coefficient pair (left, right) at flat index
`i*irSize + k` of IR `i`, and `delay m` the delay pair of IR `m`. -/
structure MirrorData where
  coeff : ℕ → ℚ × ℚ
  delay : ℕ → ℕ × ℕ

/-- Body of the mirroring loop for one azimuth index `j` of an elevation
with offset `evoffset` and azimuth count `azcount` (hrtf.cpp lines 712-720,
812-820, 1026-1034): the right channel at
`ridx = evoffset + ((azcount - j) % azcount)` receives the left channel at
`lidx = evoffset + j`, for the `irSize` coefficients and the delay.  The
inner `k` loop writes each coefficient position once and reads only left
channels, which no write modifies, so it is modelled by its pointwise
effect. -/
def mirrorJ (irSize evoffset azcount j : ℕ) (d : MirrorData) : MirrorData :=
  let lidx := evoffset + j
  let ridx := evoffset + ((azcount - j) % azcount)
  { coeff := fun m =>
      if ridx * irSize ≤ m ∧ m < ridx * irSize + irSize then
        ((d.coeff m).1, (d.coeff (lidx * irSize + (m - ridx * irSize))).1)
      else d.coeff m
    delay := fun m =>
      if m = ridx then ((d.delay m).1, (d.delay lidx).1) else d.delay m }

/-- Mirroring loop over a list of azimuth indices of one elevation. -/
def mirrorJFold (irSize evoffset azcount : ℕ) (L : List ℕ) (d : MirrorData) :
    MirrorData :=
  L.foldl (fun acc j => mirrorJ irSize evoffset azcount j acc) d

/-- Mirroring over all azimuths `j < azcount` of one elevation
`e = (evoffset, azcount)`. -/
def mirrorElev (irSize : ℕ) (d : MirrorData) (e : ℕ × ℕ) : MirrorData :=
  mirrorJFold irSize e.1 e.2 (List.range e.2) d

/-- Full left-to-right mirroring pass over the elevation table, each entry
an `(evoffset, azcount)` pair, as the loaders run it. -/
def mirrorAll (irSize : ℕ) (elevs : List (ℕ × ℕ)) (d : MirrorData) : MirrorData :=
  elevs.foldl (mirrorElev irSize) d

/-- The elevation table is offset-consistent from base `b`: each entry's IR
offset is the running sum of the preceding azimuth counts, as the loaders
compute `evOffset` by prefix sums (or validate it strictly increasing). -/
def offsetsFrom : ℕ → List (ℕ × ℕ) → Prop
  | _, [] => True
  | b, e :: rest => e.1 = b ∧ offsetsFrom (b + e.2) rest

/-- Concrete data set for the mirroring witness: distinct left-channel
values, zero right channels. -/
def exMirrorData : MirrorData where
  coeff := fun m => ((m : ℚ), 0)
  delay := fun m => (m + 20, 0)

/-- The C `isspace` character set used by the `EnumerateHrtf` path parser
(space, tab, newline, vertical tab, form feed, carriage return). -/
def isSpaceC (c : Char) : Bool :=
  c = ' ' || c = '\t' || c = '\n' || c = Char.ofNat 11 || c = Char.ofNat 12 || c = '\r'

/-- Trailing-whitespace trim of one path entry, mirroring
`while(end != pathlist && isspace(*(end-1))) --end;` in `EnumerateHrtf`. -/
def trimEnd (l : List Char) : List Char :=
  (l.reverse.dropWhile isSpaceC).reverse

/-- One iteration structure of the `hrtf-paths` parsing loop of
`EnumerateHrtf` (hrtf.cpp lines 1214-1243): skip spaces and commas; stop on
end of string keeping `usedefaults`; otherwise take the entry up to the next
comma.  When no comma follows, `usedefaults` is cleared and the loop ends;
when one does, parsing continues after it.  The fuel argument dominates the
number of loop iterations (each consumes at least one character) and is
supplied as `length + 1` by `parsePaths`, so the fuel-exhausted branch is
never reached. -/
def parsePathsAux : ℕ → List Char → List (List Char) × Bool
  | 0, _ => ([], true)
  | fuel + 1, l =>
    let l1 := l.dropWhile (fun c => isSpaceC c || c = ',')
    match l1 with
    | [] => ([], true)
    | _ :: _ =>
      let entry := trimEnd (l1.takeWhile (fun c => c != ','))
      match l1.dropWhile (fun c => c != ',') with
      | [] => (if entry.isEmpty then [] else [entry], false)
      | _ :: after =>
        let r := parsePathsAux fuel after
        ((if entry.isEmpty then r.1 else entry :: r.1), r.2)

/-- The parsed `hrtf-paths` entries and the final `usedefaults` flag of
`EnumerateHrtf`. -/
def parsePaths (l : List Char) : List (List Char) × Bool :=
  parsePathsAux (l.length + 1) l

/-- A path list "ends with a bare (unterminated) final entry" when the text
after its last comma contains a non-whitespace character. -/
def endsWithBareEntry (l : List Char) : Bool :=
  (l.reverse.takeWhile (fun c => c != ',')).any (fun c => !isSpaceC c)

/-- Defaults decision of `EnumerateHrtf`: `usedefaults` starts true, the
path parser may clear it, and an absent `hrtf-paths` option keeps it. -/
def enumerateUseDefaults : Option (List Char) → Bool
  | none => true
  | some l => (parsePaths l).2

/-- Byte stream consumed by the loaders: the remaining input bytes. -/
def Bytes : Type := List ℕ

/-- Reader `GetLE_ALubyte`: one byte, failing on an exhausted stream (for
successful loads this coincides with the source's read-then-check-eof
discipline; only successful loads matter to the claims below). -/
def rdU8 : Bytes → Option (ℕ × Bytes)
  | ([] : List ℕ) => none
  | (b :: r : List ℕ) => some (b, r)

/-- Reader `GetLE_ALushort`: two bytes, little endian. -/
def rdU16 (bs : Bytes) : Option (ℕ × Bytes) := do
  let (b0, bs) ← rdU8 bs
  let (b1, bs) ← rdU8 bs
  some (b0 + 256 * b1, bs)

/-- Reader `GetLE_ALuint`: four bytes, little endian. -/
def rdU32 (bs : Bytes) : Option (ℕ × Bytes) := do
  let (b0, bs) ← rdU8 bs
  let (b1, bs) ← rdU8 bs
  let (b2, bs) ← rdU8 bs
  let (b3, bs) ← rdU8 bs
  some (b0 + 256 * b1 + 65536 * b2 + 16777216 * b3, bs)

/-- Reader `GetLE_ALshort`: two's-complement sign extension of a 16-bit
little-endian value (the source's `(ret^32768) - 32768`). -/
def rdS16 (bs : Bytes) : Option (ℤ × Bytes) := do
  let (v, bs) ← rdU16 bs
  some ((v : ℤ) - (if 32768 ≤ v then 65536 else 0), bs)

/-- Reader `GetLE_ALint24`: two's-complement sign extension of a 24-bit
little-endian value (the source's `(ret^8388608) - 8388608`). -/
def rdS24 (bs : Bytes) : Option (ℤ × Bytes) := do
  let (b0, bs) ← rdU8 bs
  let (b1, bs) ← rdU8 bs
  let (b2, bs) ← rdU8 bs
  let v := b0 + 256 * b1 + 65536 * b2
  some ((v : ℤ) - (if 8388608 ≤ v then 16777216 else 0), bs)

/-- Repeat a reader `n` times, collecting the values. -/
def rdList {α : Type} (rd : Bytes → Option (α × Bytes)) :
    ℕ → Bytes → Option (List α × Bytes)
  | 0, bs => some ([], bs)
  | n + 1, bs => do
    let (v, bs1) ← rd bs
    let (vs, bs2) ← rdList rd n bs1
    some (v :: vs, bs2)

/-- Per-field data parsed by `LoadHrtf02`: distance in millimetres,
elevation count, per-elevation azimuth counts. -/
structure FieldRec where
  distanceMm : ℕ
  evCount : ℕ
  azCounts : List ℕ
deriving DecidableEq

/-- One iteration of the field loop of `LoadHrtf02` (hrtf.cpp lines
878-930): read and validate the distance (range and strictly-after the
previous field's distance), the elevation count, and the azimuth counts. -/
def parseField02 (prev : Option ℕ) (bs : Bytes) : Option (FieldRec × Bytes) := do
  let (dist, bs1) ← rdU16 bs
  let (evCnt, bs2) ← rdU8 bs1
  if dist < MIN_FD_DISTANCE || MAX_FD_DISTANCE < dist then none
  else if prev.elim false (fun p => dist ≤ p) then none
  else if evCnt < MIN_EV_COUNT || MAX_EV_COUNT < evCnt then none
  else do
    let (azs, bs3) ← rdList rdU8 evCnt bs2
    if azs.all (fun a => decide (MIN_AZ_COUNT ≤ a ∧ a ≤ MAX_AZ_COUNT)) then
      some (⟨dist, evCnt, azs⟩, bs3)
    else none

/-- The field loop of `LoadHrtf02`, threading the previous distance for the
monotonicity check. -/
def parseFields02 (prev : Option ℕ) : ℕ → Bytes → Option (List FieldRec × Bytes)
  | 0, bs => some ([], bs)
  | n + 1, bs => do
    let (f, bs1) ← parseField02 prev bs
    let (fs, bs2) ← parseFields02 (some f.distanceMm) n bs1
    some (f :: fs, bs2)

/-- Store produced by `LoadHrtf02` / `CreateHrtfStore`, with the per-field
distances kept in file millimetres (`CreateHrtfStore` divides by 1000 when
filling the field table; see `Store02.fieldDistances`). -/
structure Store02 where
  sampleRate : ℕ
  irSize : ℕ
  fdCount : ℕ
  distancesMm : List ℕ
  evCounts : List ℕ
  azCounts : List ℕ
  evOffsets : List ℕ
  coeffs : List (ℚ × ℚ)
  delays : List (ℕ × ℕ)

/-- Field distances of the built store in metres, as `CreateHrtfStore`
stores them (`field_[i].distance = distance[i] / 1000.0f`). -/
def Store02.fieldDistances (s : Store02) : List ℚ :=
  s.distancesMm.map (fun d : ℕ => (d : ℚ) / 1000)

/-- Running offsets of the elevation table: `evOffset[0] = 0`, then partial
sums of the azimuth counts, as `LoadHrtf02` computes with
`std::partial_sum`. -/
def runningOffsets : ℕ → List ℕ → List ℕ
  | _, [] => []
  | b, a :: t => b :: runningOffsets (b + a) t

/-- Coefficient/delay reading stage of `LoadHrtf02` (hrtf.cpp lines
937-1014): read according to sample and channel type, validate every delay
against `MAX_HRIR_DELAY`, then shift into fixed point. -/
def readCoeffsDelays02 (sampleType channelType irSize irTotal : ℕ) (bs : Bytes) :
    Option (List (ℚ × ℚ) × List (ℕ × ℕ) × Bytes) :=
  let rd1 : Bytes → Option (ℚ × Bytes) :=
    if sampleType = 0 then
      fun bs => (rdS16 bs).map (fun vr => ((vr.1 : ℚ) / 32768, vr.2))
    else
      fun bs => (rdS24 bs).map (fun vr => ((vr.1 : ℚ) / 8388608, vr.2))
  if channelType = 0 then do
    let (cs, bs1) ← rdList rd1 (irSize * irTotal) bs
    let (ds, bs2) ← rdList rdU8 irTotal bs1
    if ds.all (fun d => decide (d ≤ MAX_HRIR_DELAY)) then
      some (cs.map (fun c => (c, 0)),
        ds.map (fun d => (d * HRIR_DELAY_FRACONE, 0)), bs2)
    else none
  else do
    let rd2 : Bytes → Option ((ℚ × ℚ) × Bytes) := fun bs => do
      let (v0, bs1) ← rd1 bs
      let (v1, bs2) ← rd1 bs1
      some ((v0, v1), bs2)
    let rd2d : Bytes → Option ((ℕ × ℕ) × Bytes) := fun bs => do
      let (v0, bs1) ← rdU8 bs
      let (v1, bs2) ← rdU8 bs1
      some ((v0, v1), bs2)
    let (cs, bs1) ← rdList rd2 (irSize * irTotal) bs
    let (ds, bs2) ← rdList rd2d irTotal bs1
    if ds.all (fun d => decide (d.1 ≤ MAX_HRIR_DELAY ∧ d.2 ≤ MAX_HRIR_DELAY)) then
      some (cs, ds.map (fun d => (d.1 * HRIR_DELAY_FRACONE, d.2 * HRIR_DELAY_FRACONE)), bs2)
    else none

/-- Left-to-right mirroring applied to the loader's flat coefficient and
delay vectors, through the `MirrorData` view of the same loop. -/
def mirrorLists (irSize : ℕ) (elevs : List (ℕ × ℕ))
    (coeffs : List (ℚ × ℚ)) (delays : List (ℕ × ℕ)) :
    List (ℚ × ℚ) × List (ℕ × ℕ) :=
  let d0 : MirrorData :=
    { coeff := fun m => coeffs.getD m (0, 0), delay := fun m => delays.getD m (0, 0) }
  let d1 := mirrorAll irSize elevs d0
  ((List.range coeffs.length).map d1.coeff, (List.range delays.length).map d1.delay)

/-- Split a flat vector into consecutive groups of the given sizes. -/
def splitSizes {α : Type} : List ℕ → List α → List (List α)
  | [], _ => []
  | n :: ns, l => l.take n :: splitSizes ns (l.drop n)

/-- Net effect of the `copy_backward`-based field reordering of
`LoadHrtf02` (hrtf.cpp lines 1040-1099): the per-field groups appear in
reversed order while each group keeps its internal order. -/
def reorderGroups {α : Type} (sizes : List ℕ) (l : List α) : List α :=
  ((splitSizes sizes l).reverse).flatten

/-- Store-building tail of `LoadHrtf02`: read coefficients and delays,
mirror left-only data, reorder the fields of a multi-field file, and fill
the store as `CreateHrtfStore` does. -/
def buildStore02 (rate sampleType channelType irSize fdCount : ℕ)
    (fields : List FieldRec) (bs : Bytes) : Option Store02 := do
  let azFlat := (fields.map FieldRec.azCounts).flatten
  let evOffsets := runningOffsets 0 azFlat
  let irTotal := azFlat.sum
  let (cs0, ds0, _) ← readCoeffsDelays02 sampleType channelType irSize irTotal bs
  let mirrored :=
    if channelType = 0 then mirrorLists irSize (evOffsets.zip azFlat) cs0 ds0
    else (cs0, ds0)
  if 1 < fdCount then
    let azFlatR := ((fields.reverse).map FieldRec.azCounts).flatten
    let csizes := fields.map (fun f => f.azCounts.sum * irSize)
    let dsizes := fields.map (fun f => f.azCounts.sum)
    some { sampleRate := rate, irSize := irSize, fdCount := fdCount
           distancesMm := (fields.map FieldRec.distanceMm).reverse
           evCounts := (fields.map FieldRec.evCount).reverse
           azCounts := azFlatR
           evOffsets := runningOffsets 0 azFlatR
           coeffs := reorderGroups csizes mirrored.1
           delays := reorderGroups dsizes mirrored.2 }
  else
    some { sampleRate := rate, irSize := irSize, fdCount := fdCount
           distancesMm := fields.map FieldRec.distanceMm
           evCounts := fields.map FieldRec.evCount
           azCounts := azFlat
           evOffsets := evOffsets
           coeffs := mirrored.1
           delays := mirrored.2 }

/-- Shallow embedding of `LoadHrtf02` (hrtf.cpp lines 835-1104): header
reads and validation, field parsing, then the store-building tail. -/
def LoadHrtf02 (bs : Bytes) : Option Store02 := do
  let (rate, bs1) ← rdU32 bs
  let (sampleType, bs2) ← rdU8 bs1
  let (channelType, bs3) ← rdU8 bs2
  let (irSize, bs4) ← rdU8 bs3
  let (fdCount, bs5) ← rdU8 bs4
  if 1 < sampleType then none
  else if 1 < channelType then none
  else if irSize < MIN_IR_SIZE || MAX_IR_SIZE < irSize || irSize % MOD_IR_SIZE != 0 then none
  else if fdCount < 1 || MAX_FD_COUNT < fdCount then none
  else do
    let (fields, bs6) ← parseFields02 none fdCount bs5
    buildStore02 rate sampleType channelType irSize fdCount fields bs6

/-- Concrete well-formed two-field V2 byte stream (after the magic):
rate 44100, S16 samples, left-only, `irSize` 8, two fields at 100 mm and
200 mm, five elevations of one azimuth each per field, zero coefficients
and delays. -/
def exBytesC2 : Bytes :=
  ([68, 172, 0, 0, 0, 0, 8, 2] ++
   [100, 0, 5, 1, 1, 1, 1, 1] ++
   [200, 0, 5, 1, 1, 1, 1, 1] ++
   List.replicate 160 0 ++ List.replicate 10 0 : List ℕ)


/-- Resource-filename check of `GetLoadedHrtf`: the synthetic form
`!<digits>_<name>` produced by `AddBuiltInEntry`, matched by
`sscanf(fname, "!%d%c", ...) == 2 && ch == '_'`. -/
def isResourceName (fname : List Char) : Bool :=
  match fname with
  | '!' :: rest =>
    !(rest.takeWhile Char.isDigit).isEmpty &&
      ((rest.dropWhile Char.isDigit).headD ' ' == '_')
  | _ => false

/-- Lexicographic filename order used by the sorted cache
(`hrtf.mFilename < filename` on `std::string`). -/
def fnameLt : List Char → List Char → Bool
  | [], [] => false
  | [], _ :: _ => true
  | _ :: _, [] => false
  | a :: as, b :: bs => if a < b then true else if b < a then false else fnameLt as bs

/-- Cache-hit scan of `GetLoadedHrtf` (hrtf.cpp lines 1283-1295): the first
entry in order with the wanted filename and a non-null store at the device
rate; on a hit the store's reference count is incremented in place. -/
def cacheLookup (fname : List Char) (devrate : ℕ) :
    List LoadedHrtf → Option (StoreM × List LoadedHrtf)
  | [] => none
  | e :: t =>
    match e.mEntry with
    | some st =>
      if e.mFilename = fname ∧ st.sampleRate = devrate then
        some ({ st with ref := st.ref + 1 },
          ⟨e.mFilename, some { st with ref := st.ref + 1 }⟩ :: t)
      else (cacheLookup fname devrate t).map (fun r => (r.1, e :: r.2))
    | none => (cacheLookup fname devrate t).map (fun r => (r.1, e :: r.2))

/-- Sorted insertion of a freshly loaded entry at the `lower_bound`
position the source's `handle` iterator designates (after any entries with
the same filename). -/
def insertSorted (x : LoadedHrtf) : List LoadedHrtf → List LoadedHrtf
  | [] => [x]
  | e :: t =>
    if fnameLt x.mFilename e.mFilename then x :: e :: t else e :: insertSorted x t

/-- The eight magic bytes `MinPHR00`. -/
def magicMarker00 : List ℕ := [77, 105, 110, 80, 72, 82, 48, 48]

/-- The eight magic bytes `MinPHR01`. -/
def magicMarker01 : List ℕ := [77, 105, 110, 80, 72, 82, 48, 49]

/-- The eight magic bytes `MinPHR02`. -/
def magicMarker02 : List ℕ := [77, 105, 110, 80, 72, 82, 48, 50]

/-- Environment of `GetLoadedHrtf`: the enumerated `(dispName, filename)`
entries, file and embedded-resource contents (`none` models an unopenable
file or missing resource), the `hrtf-size` option, and the three format
loaders, abstracted as parameters so the cache theorem quantifies over
them. -/
structure LoadEnv where
  enumerated : List (List Char × List Char)
  fileContents : List Char → Option (List ℕ)
  resContents : List Char → Option (List ℕ)
  hrtfSizeOpt : Option ℕ
  load00 : List ℕ → Option StoreM
  load01 : List ℕ → Option StoreM
  load02 : List ℕ → Option StoreM

/-- The `hrtf-size` clamp of `GetLoadedHrtf` (hrtf.cpp lines 1397-1404). -/
def applyHrtfSizeOpt (opt : Option ℕ) (st : StoreM) : StoreM :=
  match opt with
  | some sz =>
    if 0 < sz ∧ sz < st.irSize then
      { st with irSize := max sz MIN_IR_SIZE - (max sz MIN_IR_SIZE) % MOD_IR_SIZE }
    else st
  | none => st

/-- Shallow embedding of `GetLoadedHrtf` (hrtf.cpp lines 1272-1411):
enumeration lookup, cache scan, stream acquisition, magic dispatch to a
loader, conditioning, `hrtf-size` clamp, and sorted insertion; every
failure path returns null with the incoming cache. -/
def GetLoadedHrtf (env : LoadEnv) (cache : List LoadedHrtf)
    (name : List Char) (devrate : ℕ) : Option StoreM × List LoadedHrtf :=
  match env.enumerated.find? (fun e => e.1 == name) with
  | none => (none, cache)
  | some entry =>
    match cacheLookup entry.2 devrate cache with
    | some r => (some r.1, r.2)
    | none =>
      match (if isResourceName entry.2 then env.resContents entry.2
             else env.fileContents entry.2) with
      | none => (none, cache)
      | some data =>
        if data.length < 8 then (none, cache)
        else
          match (if data.take 8 = magicMarker02 then env.load02 (data.drop 8)
                 else if data.take 8 = magicMarker01 then env.load01 (data.drop 8)
                 else if data.take 8 = magicMarker00 then env.load00 (data.drop 8)
                 else none) with
          | none => (none, cache)
          | some st =>
            (some (applyHrtfSizeOpt env.hrtfSizeOpt (conditionStore st devrate)),
             insertSorted
               ⟨entry.2, some (applyHrtfSizeOpt env.hrtfSizeOpt (conditionStore st devrate))⟩
               cache)

/-- Environment for the C8 witness: one enumerated entry whose file holds
three bytes, so the magic read comes up short; no resources, no loaders
succeed. -/
def exEnvC8 : LoadEnv where
  enumerated := [(['F', 'o', 'o'], ['f', 'o', 'o', '.', 'm', 'h', 'r'])]
  fileContents := fun f =>
    if f = ['f', 'o', 'o', '.', 'm', 'h', 'r'] then some [1, 2, 3] else none
  resContents := fun _ => none
  hrtfSizeOpt := none
  load00 := fun _ => none
  load01 := fun _ => none
  load02 := fun _ => none

/-- Non-empty cache for the C8 witness. -/
def exCacheC8 : List LoadedHrtf := [⟨['a'], none⟩]

/-- Chain predicate threaded through the field parser: the parsed distances
are strictly increasing, and strictly above the previous distance when one
exists. -/
def optChain : Option ℕ → List ℕ → Prop
  | none, l => List.Chain' (· < ·) l
  | some p, l => List.Chain (· < ·) p l

theorem tauF_ne_zero : tauF ≠ 0 := by norm_num [tauF, piF]

/-- Natural division helper: adding half the divisor before dividing equals
dividing the doubled numerator plus divisor by the doubled divisor. -/
theorem half_div (a s : ℕ) (hs : 0 < s) : (2 * a + s) / (2 * s) = (a + s / 2) / s := by
  rcases Nat.even_or_odd s with ⟨t, ht⟩ | ⟨t, ht⟩
  · subst ht
    have h1 : 2 * a + (t + t) = 2 * (a + t) := by ring
    have h2 : 2 * (t + t) = 2 * (2 * t) := by ring
    rw [h1, h2, Nat.mul_div_mul_left _ _ (by omega : 0 < 2)]
    have h3 : (t + t) / 2 = t := by omega
    rw [h3]
    congr 1
    omega
  · subst ht
    have hs2 : (2 * t + 1) / 2 = t := by omega
    rw [hs2]
    obtain ⟨q, r, hrlt, heq⟩ : ∃ q r, r < 2 * t + 1 ∧ a + t = q * (2 * t + 1) + r :=
      ⟨(a + t) / (2 * t + 1), (a + t) % (2 * t + 1), Nat.mod_lt _ (by omega), by
        rw [mul_comm]
        exact (Nat.div_add_mod _ _).symm⟩
    have key : 2 * a + (2 * t + 1) = (2 * r + 1) + q * (2 * (2 * t + 1)) := by
      have h2 : 2 * a + (2 * t + 1) = 2 * (a + t) + 1 := by ring
      rw [h2, heq]
      ring
    rw [key, Nat.add_mul_div_right _ _ (by omega : 0 < 2 * (2 * t + 1)),
      Nat.div_eq_of_lt (by omega)]
    have hq : (a + t) / (2 * t + 1) = q := by
      rw [heq, add_comm (q * (2 * t + 1)) r,
        Nat.add_mul_div_right _ _ (by omega : 0 < 2 * t + 1), Nat.div_eq_of_lt hrlt]
      omega
    omega

/-- Floor of `a/s + 1/2` over the rationals equals the biased natural
division used by the source. -/
theorem floor_half (a s : ℕ) (hs : 0 < s) :
    ⌊((a : ℚ) / s + 1 / 2)⌋₊ = (2 * a + s) / (2 * s) := by
  have hcast : ((a : ℚ) / s + 1 / 2) = ((2 * a + s : ℕ) : ℚ) / ((2 * s : ℕ) : ℚ) := by
    have hs' : (s : ℚ) ≠ 0 := Nat.cast_ne_zero.mpr (by omega)
    push_cast
    field_simp
    ring
  rw [hcast, Nat.floor_div_nat, Nat.floor_natCast]

/-- Ceiling of `a/s` over the rationals equals the biased natural division
used by the source. -/
theorem ceil_div_nat_eq (a s : ℕ) (hs : 0 < s) :
    ⌈((a : ℚ) / s)⌉₊ = (a + s - 1) / s := by
  rcases Nat.eq_zero_or_pos a with rfl | ha
  · rw [Nat.cast_zero, zero_div, Nat.ceil_zero]
    rw [Nat.div_eq_of_lt (by omega)]
  · obtain ⟨q, r, hrlt, heq⟩ : ∃ q r, r < s ∧ a + s - 1 = q * s + r :=
      ⟨(a + s - 1) / s, (a + s - 1) % s, Nat.mod_lt _ hs, by
        rw [mul_comm]
        exact (Nat.div_add_mod _ _).symm⟩
    have hdiv : (a + s - 1) / s = q := by
      rw [heq, add_comm (q * s) r, Nat.add_mul_div_right _ _ hs, Nat.div_eq_of_lt hrlt]
      omega
    rw [hdiv]
    have hsub : (q - 1) * s = q * s - s := by
      rw [Nat.sub_mul, one_mul]
    have hqpos : 0 < q := by
      rcases Nat.eq_zero_or_pos q with h0 | h
      · rw [h0] at heq
        omega
      · exact h
    have hle : a ≤ q * s := by omega
    have hlt : (q - 1) * s < a := by
      rw [hsub]
      have hqs : s ≤ q * s := Nat.le_mul_of_pos_left s hqpos
      omega
    rw [Nat.ceil_eq_iff (by omega)]
    have hs' : (0 : ℚ) < (s : ℚ) := by exact_mod_cast hs
    constructor
    · rw [lt_div_iff₀ hs']
      calc ((q - 1 : ℕ) : ℚ) * s = (((q - 1) * s : ℕ) : ℚ) := by push_cast; ring
        _ < a := by exact_mod_cast hlt
    · rw [div_le_iff₀ hs']
      calc (a : ℚ) ≤ ((q * s : ℕ) : ℚ) := by exact_mod_cast hle
        _ = (q : ℚ) * s := by push_cast; ring

/-- C1: the code disagrees with the claimed per-ear weighted sum.  At a
concrete store and direction whose blend weights are `1/4, 1/4, 3/8, 1/8`,
with the only nonzero second-channel delay at corner `idx[3]`, the source
computes the right-ear delay as 15 (it scales `delays[idx[3]][1]` by
`blend[1] = 1/4`), while the claim's weighted sum over all four corners
(weight `blend[3] = 1/8`) yields 7. -/
theorem GetHrtfCoeffs_delay1_blend_bug :
    (GetHrtfCoeffs exStoreC1 (-(3 * piF) / 8) (tauF / 8) 1 0).delay1 = 15 ∧
    (claimedDelays exStoreC1 (-(3 * piF) / 8) (tauF / 8) 1 0).2 = 7 := by
  constructor <;>
  · norm_num [GetHrtfCoeffs, claimedDelays, hrtfBlend, fieldWalk, fieldWalkAux,
      exStoreC1, CalcEvIndex, CalcAzIndex, float2uint, fastf2u, tauF, piF,
      HRIR_DELAY_FRACONE, HRIR_DELAY_FRACBITS, Nat.shiftLeft_eq]
    norm_num [show Int.toNat 4 = 4 from rfl, show Int.toNat 2 = 2 from rfl]
    rfl

/-- C4: with `spread = 2*pi` (the float value `tauF`), `GetHrtfCoeffs`
produces the pass-through coefficient `PassthruCoeff` at the two interleaved
positions of output sample 0, zero at every later position, and zero for
both delays, for every store and every elevation, azimuth and distance:
`dirfact = 0` makes all four blend weights vanish. -/
theorem GetHrtfCoeffs_omni_spread (s : HrtfStore)
    (elevation azimuth distance : ℚ) :
    (GetHrtfCoeffs s elevation azimuth distance tauF).coeffs 0 = PassthruCoeff ∧
    (GetHrtfCoeffs s elevation azimuth distance tauF).coeffs 1 = PassthruCoeff ∧
    (∀ p, 2 ≤ p → (GetHrtfCoeffs s elevation azimuth distance tauF).coeffs p = 0) ∧
    (GetHrtfCoeffs s elevation azimuth distance tauF).delay0 = 0 ∧
    (GetHrtfCoeffs s elevation azimuth distance tauF).delay1 = 0 := by
  refine ⟨?_, ?_, fun p hp => ?_, ?_, ?_⟩ <;>
  · simp only [GetHrtfCoeffs, hrtfBlend, blendStep, fastf2u]
    rw [div_self tauF_ne_zero]
    first
      | simp [Nat.not_lt.mpr hp, mul_zero, zero_mul]
      | norm_num

/-- C10: the intended delay bound fails on the code.  A store whose
fixed-point delays all equal the maximum legal value 252 =
`MAX_HRIR_DELAY * HRIR_DELAY_FRACONE`, queried at a direction with blend
weights `1/4, 1/4, 3/8, 1/8` and `spread = 0`, yields a right-ear delay of
70 > `MAX_HRIR_DELAY` = 63, because the second-channel sum reuses
`blend[1]` in place of `blend[3]` and the weights it applies sum to more
than one. -/
theorem GetHrtfCoeffs_delay1_exceeds_max :
    (GetHrtfCoeffs exStoreC10 (-(3 * piF) / 8) (tauF / 8) 1 0).delay1 = 70 ∧
    MAX_HRIR_DELAY < 70 ∧
    (∀ i, (exStoreC10.delays i).1 ≤ MAX_HRIR_DELAY * HRIR_DELAY_FRACONE ∧
      (exStoreC10.delays i).2 ≤ MAX_HRIR_DELAY * HRIR_DELAY_FRACONE) := by
  refine ⟨?_, by decide, fun i => by simp only [exStoreC10]; exact ⟨by decide, by decide⟩⟩
  norm_num [GetHrtfCoeffs, hrtfBlend, fieldWalk, fieldWalkAux,
    exStoreC10, exStoreC1, CalcEvIndex, CalcAzIndex, float2uint, fastf2u,
    tauF, piF, HRIR_DELAY_FRACONE, HRIR_DELAY_FRACBITS, Nat.shiftLeft_eq]
  norm_num [show Int.toNat 4 = 4 from rfl, show Int.toNat 2 = 2 from rfl]
  rfl

/-- The source's biased division for delay rescaling is exactly the clamped
round-to-nearest of the exact rational quotient. -/
theorem rescaleDelay_roundNearest (d r s : ℕ) (hs : 0 < s) :
    rescaleDelayCode d r s =
      min (MAX_HRIR_DELAY * HRIR_DELAY_FRACONE) (roundNearest ((d : ℚ) * r / s)) := by
  unfold rescaleDelayCode roundNearest
  congr 1
  have hcast : ((d : ℚ) * r / s) = ((d * r : ℕ) : ℚ) / s := by push_cast; ring
  rw [hcast, floor_half (d * r) s hs, half_div (d * r) s hs]

/-- C6: when `GetLoadedHrtf` loads a store whose sample rate differs from
the device rate, each stored fixed-point delay of each IR is replaced by
round-to-nearest of `delay_old * devrate / srate`, clamped to
`MAX_HRIR_DELAY * HRIR_DELAY_FRACONE`; the 64-bit unsigned intermediate
cannot overflow for in-range inputs, so the `Nat` model coincides with the
source's u64 arithmetic. -/
theorem conditionStore_delays_round_nearest (st : StoreM) (devrate i : ℕ)
    (hs : 0 < st.sampleRate) (hne : st.sampleRate ≠ devrate) (hi : i < st.irCount)
    (hd1 : (st.delays i).1 < 256) (hd2 : (st.delays i).2 < 256)
    (hdev : devrate < 2 ^ 32) (hsr : st.sampleRate < 2 ^ 32) :
    (conditionStore st devrate).delays i =
      (min (MAX_HRIR_DELAY * HRIR_DELAY_FRACONE)
        (roundNearest (((st.delays i).1 : ℚ) * devrate / st.sampleRate)),
       min (MAX_HRIR_DELAY * HRIR_DELAY_FRACONE)
        (roundNearest (((st.delays i).2 : ℚ) * devrate / st.sampleRate))) ∧
    (st.delays i).1 * devrate + st.sampleRate / 2 < 2 ^ 64 ∧
    (st.delays i).2 * devrate + st.sampleRate / 2 < 2 ^ 64 := by
  have hov1 : (st.delays i).1 * devrate ≤ 255 * (2 ^ 32 - 1) :=
    Nat.mul_le_mul (by omega) (by omega)
  have hov2 : (st.delays i).2 * devrate ≤ 255 * (2 ^ 32 - 1) :=
    Nat.mul_le_mul (by omega) (by omega)
  refine ⟨?_, by omega, by omega⟩
  simp only [conditionStore, if_pos hne, if_pos hi]
  rw [rescaleDelay_roundNearest _ _ _ hs, rescaleDelay_roundNearest _ _ _ hs]

/-- Witness for C6 at a concrete store: rate 22050 loaded at 44100,
first IR. -/
theorem conditionStore_delays_round_nearest_witness :
    (0 < exStoreC6.sampleRate ∧ exStoreC6.sampleRate ≠ 44100 ∧ 0 < exStoreC6.irCount) ∧
    ((conditionStore exStoreC6 44100).delays 0 =
      (min (MAX_HRIR_DELAY * HRIR_DELAY_FRACONE)
        (roundNearest (((exStoreC6.delays 0).1 : ℚ) * 44100 / exStoreC6.sampleRate)),
       min (MAX_HRIR_DELAY * HRIR_DELAY_FRACONE)
        (roundNearest (((exStoreC6.delays 0).2 : ℚ) * 44100 / exStoreC6.sampleRate))) ∧
     (exStoreC6.delays 0).1 * 44100 + exStoreC6.sampleRate / 2 < 2 ^ 64 ∧
     (exStoreC6.delays 0).2 * 44100 + exStoreC6.sampleRate / 2 < 2 ^ 64) :=
  ⟨⟨by decide, by decide, by decide⟩,
   conditionStore_delays_round_nearest exStoreC6 44100 0 (by decide) (by decide)
     (by decide) (by decide) (by decide) (by decide) (by decide)⟩

/-- C7: when the rates differ, the conditioned store's sample rate becomes
the device rate and its IR size is the ceiling of `irSize_old*devrate/srate`,
clamped to `HRIR_LENGTH` and rounded up to a multiple of `MOD_IR_SIZE`. -/
theorem conditionStore_irSize_ceil (st : StoreM) (devrate : ℕ)
    (hs : 0 < st.sampleRate) (hne : st.sampleRate ≠ devrate) :
    (conditionStore st devrate).sampleRate = devrate ∧
    (conditionStore st devrate).irSize =
      roundUpMultiple MOD_IR_SIZE
        (min HRIR_LENGTH ⌈((st.irSize : ℚ) * devrate / st.sampleRate)⌉₊) := by
  refine ⟨by simp only [conditionStore, if_pos hne], ?_⟩
  simp only [conditionStore, if_pos hne]
  have hcast : ((st.irSize : ℚ) * devrate / st.sampleRate) =
      ((st.irSize * devrate : ℕ) : ℚ) / st.sampleRate := by push_cast; ring
  rw [hcast, ceil_div_nat_eq _ _ hs]
  simp only [rescaleIrSizeCode, roundUpMultiple, MOD_IR_SIZE]
  have harg : st.irSize * devrate + (st.sampleRate - 1) =
      st.irSize * devrate + st.sampleRate - 1 := by omega
  rw [harg]
  set m := min HRIR_LENGTH ((st.irSize * devrate + st.sampleRate - 1) / st.sampleRate)
    with hm
  omega

/-- Witness for C7, realising the spec's S4 scenario: a file with rate
22050 and `irSize = 8` loaded at device rate 44100 ends with sample rate
44100 and `irSize = 16`. -/
theorem conditionStore_irSize_ceil_witness :
    (0 < exStoreC6.sampleRate ∧ exStoreC6.sampleRate ≠ 44100) ∧
    ((conditionStore exStoreC6 44100).sampleRate = 44100 ∧
     (conditionStore exStoreC6 44100).irSize =
       roundUpMultiple MOD_IR_SIZE
         (min HRIR_LENGTH ⌈((exStoreC6.irSize : ℚ) * 44100 / exStoreC6.sampleRate)⌉₊)) ∧
    (conditionStore exStoreC6 44100).irSize = 16 :=
  ⟨⟨by decide, by decide⟩,
   conditionStore_irSize_ceil exStoreC6 44100 (by decide) (by decide),
   by decide⟩

/-- The single sweep pass of `DecRef` computes exactly the filter keeping
the slots that do not read a zero reference count. -/
theorem sweepLoadedHrtfs_eq_filter (l : List LoadedHrtf) :
    sweepLoadedHrtfs l = l.filter (fun e => !removeUnused e) := by
  induction l with
  | nil => rfl
  | cons h t ih =>
    by_cases hc : removeUnused h <;>
      simp [sweepLoadedHrtfs, List.filter, hc, ih]

/-- C9: when `DecRef` brings the reference count to zero, the cache is swept
in one pass removing exactly the slots whose store reads a zero reference
count (slots with a live store or no store survive), and the survivors keep
their relative order (the result is a sublist of the original cache). -/
theorem DecRef_sweep_exact (ref : ℕ) (cache : List LoadedHrtf) (h : ref = 1) :
    (DecRef ref cache).1 = 0 ∧
    (DecRef ref cache).2 = cache.filter (fun e => !removeUnused e) ∧
    (DecRef ref cache).2.Sublist cache := by
  subst h
  refine ⟨rfl, ?_, ?_⟩
  · simp only [DecRef, if_pos rfl]
    exact sweepLoadedHrtfs_eq_filter cache
  · simp only [DecRef, if_pos rfl]
    rw [sweepLoadedHrtfs_eq_filter cache]
    exact List.filter_sublist cache

/-- Witness for C9 at a concrete cache holding a dead store, a live store
and an empty slot. -/
theorem DecRef_sweep_exact_witness :
    (1 : ℕ) = 1 ∧
    ((DecRef 1 exCacheC9).1 = 0 ∧
     (DecRef 1 exCacheC9).2 = exCacheC9.filter (fun e => !removeUnused e) ∧
     (DecRef 1 exCacheC9).2.Sublist exCacheC9) :=
  ⟨rfl, DecRef_sweep_exact 1 exCacheC9 rfl⟩

/-- Characterisation of `takeWhile` over an append: keep the left part when
it wholly satisfies the predicate and continue, else stop inside it. -/
theorem takeWhile_append_if (p : Char → Bool) (xs ys : List Char) :
    (xs ++ ys).takeWhile p = if xs.all p then xs ++ ys.takeWhile p else xs.takeWhile p := by
  induction xs with
  | nil => simp
  | cons a t ih =>
    by_cases hpa : p a
    · rw [List.cons_append, List.takeWhile_cons_of_pos hpa, List.takeWhile_cons_of_pos hpa,
        ih, List.all_cons, hpa, Bool.true_and]
      by_cases hall : t.all p
      · rw [if_pos hall, if_pos hall, List.cons_append]
      · rw [if_neg hall, if_neg hall]
    · have hfa : p a = false := by simpa using hpa
      have hcond : ((a :: t).all p) = false := by
        rw [List.all_cons, hfa, Bool.false_and]
      rw [List.cons_append, List.takeWhile_cons_of_neg hpa, List.takeWhile_cons_of_neg hpa,
        hcond]
      simp

/-- On a list wholly satisfying the predicate, `takeWhile` is the identity. -/
theorem takeWhile_all_eq (p : Char → Bool) (xs : List Char) (h : xs.all p) :
    xs.takeWhile p = xs := by
  induction xs with
  | nil => rfl
  | cons a t ih =>
    simp only [List.all_cons, Bool.and_eq_true] at h
    rw [List.takeWhile_cons_of_pos h.1, ih h.2]

/-- The head surviving a `dropWhile` refutes the predicate. -/
theorem dropWhile_head_false (p : Char → Bool) (l : List Char) (x : Char) (xs : List Char)
    (h : l.dropWhile p = x :: xs) : p x = false := by
  induction l with
  | nil => simp at h
  | cons a t ih =>
    by_cases hpa : p a
    · rw [List.dropWhile_cons_of_pos hpa] at h
      exact ih h
    · rw [List.dropWhile_cons_of_neg hpa] at h
      cases h
      simpa using hpa

/-- Whether a list ends with a bare entry only depends on the text after its
last comma. -/
theorem ewbe_append_comma (xs ys : List Char) :
    endsWithBareEntry (xs ++ ',' :: ys) = endsWithBareEntry ys := by
  unfold endsWithBareEntry
  rw [List.reverse_append, List.reverse_cons]
  rw [show ys.reverse ++ [','] ++ xs.reverse = ys.reverse ++ (',' :: xs.reverse) by simp]
  rw [takeWhile_append_if]
  by_cases hall : ys.reverse.all (fun c => c != ',')
  · rw [if_pos hall, takeWhile_all_eq _ _ hall]
    rw [List.takeWhile_cons_of_neg (by simp)]
    simp
  · rw [if_neg hall]

/-- Dropping one leading separator character does not change whether the
list ends with a bare entry. -/
theorem ewbe_cons_sep (c : Char) (rest : List Char) (h : isSpaceC c || c = ',') :
    endsWithBareEntry (c :: rest) = endsWithBareEntry rest := by
  by_cases hc : c = ','
  · subst hc
    exact ewbe_append_comma [] rest
  · have hsp : isSpaceC c = true := by
      rcases Bool.or_eq_true _ _ |>.mp h with h1 | h1
      · exact h1
      · exact absurd (by simpa using h1) hc
    unfold endsWithBareEntry
    rw [List.reverse_cons, takeWhile_append_if]
    by_cases hall : rest.reverse.all (fun c => c != ',')
    · rw [if_pos hall, takeWhile_all_eq _ _ hall]
      rw [List.takeWhile_cons_of_pos (by simp [hc]), List.takeWhile_nil]
      simp [List.any_append, hsp]
    · rw [if_neg hall]

/-- Dropping leading separator characters does not change whether the list
ends with a bare entry. -/
theorem ewbe_dropWhile (l : List Char) :
    endsWithBareEntry (l.dropWhile (fun c => isSpaceC c || c = ',')) = endsWithBareEntry l := by
  induction l with
  | nil => rfl
  | cons a t ih =>
    by_cases hpa : (isSpaceC a || decide (a = ',')) = true
    · rw [List.dropWhile_cons_of_pos (p := fun c => isSpaceC c || decide (c = ',')) hpa, ih,
        ewbe_cons_sep a t hpa]
    · rw [List.dropWhile_cons_of_neg (p := fun c => isSpaceC c || decide (c = ',')) hpa]

/-- Dropping a prefix never lengthens a list. -/
theorem length_dropWhile_le' (p : Char → Bool) (l : List Char) :
    (l.dropWhile p).length ≤ l.length := by
  induction l with
  | nil => simp
  | cons a t ih =>
    by_cases hpa : p a
    · rw [List.dropWhile_cons_of_pos hpa]
      exact Nat.le_trans ih (by simp)
    · rw [List.dropWhile_cons_of_neg hpa]

/-- The `usedefaults` flag computed by the path-parsing loop is the negation
of "the list ends with a bare final entry". -/
theorem parsePathsAux_defaults (fuel : ℕ) :
    ∀ l : List Char, l.length < fuel → (parsePathsAux fuel l).2 = !endsWithBareEntry l := by
  induction fuel with
  | zero => intro l h; omega
  | succ fuel ih =>
    intro l hlen
    rw [← ewbe_dropWhile l]
    simp only [parsePathsAux]
    cases hdw : l.dropWhile (fun c => isSpaceC c || c = ',') with
    | nil => simp [endsWithBareEntry]
    | cons x r =>
      have hx : (isSpaceC x || decide (x = ',')) = false :=
        dropWhile_head_false _ l x r hdw
      have hxs : isSpaceC x = false := by
        rcases Bool.or_eq_false_iff.mp hx with ⟨h1, _⟩
        exact h1
      cases hdw2 : (x :: r).dropWhile (fun c => c != ',') with
      | nil =>
        have hall : ∀ c ∈ x :: r, (c != ',') = true := by
          intro c hc
          exact List.dropWhile_eq_nil_iff.mp hdw2 c hc
        simp only []
        have hewbe : endsWithBareEntry (x :: r) = true := by
          unfold endsWithBareEntry
          have hallrev : (x :: r).reverse.all (fun c => c != ',') = true := by
            rw [List.all_eq_true]
            intro c hc
            exact hall c (List.mem_reverse.mp hc)
          rw [takeWhile_all_eq _ _ hallrev]
          rw [List.any_eq_true]
          exact ⟨x, by simp, by simp [hxs]⟩
        rw [hewbe]
        rfl
      | cons y after =>
        have hy : (y != ',') = false := dropWhile_head_false _ _ y after hdw2
        have hy' : y = ',' := by simpa using hy
        subst hy'
        have hsplit : (x :: r).takeWhile (fun c => c != ',') ++ (',' :: after) = x :: r := by
          rw [← hdw2]
          exact List.takeWhile_append_dropWhile (fun c => c != ',') (x :: r)
        have hewbe2 : endsWithBareEntry (x :: r) = endsWithBareEntry after := by
          rw [← hsplit, ewbe_append_comma]
        have hlen2 : after.length < fuel := by
          have h1 : (x :: r).length ≤ l.length := by
            rw [← hdw]
            exact length_dropWhile_le' _ l
          have h2 : ((x :: r).takeWhile (fun c => c != ',')).length + (after.length + 1)
              = r.length + 1 := by
            have := congrArg List.length hsplit
            simpa using this
          simp only [List.length_cons] at h1
          omega
        rw [hewbe2, ← ih after hlen2]

/-- The parser always receives sufficient fuel. -/
theorem parsePaths_defaults (l : List Char) :
    (parsePaths l).2 = !endsWithBareEntry l :=
  parsePathsAux_defaults (l.length + 1) l (by omega)

/-- C3 counterexample: a trailing comma leaves `usedefaults` on (the parsed
list is non-empty and the flag stays true), while a bare final entry clears
it — the opposite of the claim's parenthetical clause. -/
theorem parsePaths_trailing_comma_keeps_defaults :
    (parsePaths ['f', 'o', 'o', ',']).1 ≠ [] ∧
    (parsePaths ['f', 'o', 'o', ',']).2 = true ∧
    (parsePaths ['f', 'o', 'o']).2 = false := by
  refine ⟨by decide, by decide, by decide⟩

/-- C3 (amended): when `hrtf-paths` is present and its parsed path list is
non-empty, the default search locations are added exactly when the list does
not end with a bare (unterminated) final entry: a trailing comma leaves
defaults on, while a bare final entry with no trailing comma forces defaults
off. -/
theorem enumerateUseDefaults_iff_no_bare_entry (l : List Char)
    (h : (parsePaths l).1 ≠ []) :
    enumerateUseDefaults (some l) = !endsWithBareEntry l :=
  parsePaths_defaults l

/-- Witness for the amended C3 at the concrete option value `"a,b,"`. -/
theorem enumerateUseDefaults_iff_no_bare_entry_witness :
    (parsePaths ['a', ',', 'b', ',']).1 ≠ [] ∧
    enumerateUseDefaults (some ['a', ',', 'b', ',']) =
      !endsWithBareEntry ['a', ',', 'b', ','] :=
  ⟨by decide, enumerateUseDefaults_iff_no_bare_entry ['a', ',', 'b', ','] (by decide)⟩


/-- Value of the mirrored azimuth index. -/
theorem mirrorIdx_val (cnt j : ℕ) (hj : j < cnt) :
    (cnt - j) % cnt = if j = 0 then 0 else cnt - j := by
  by_cases h0 : j = 0
  · subst h0
    simp [Nat.mod_self]
  · rw [if_neg h0]
    exact Nat.mod_eq_of_lt (by omega)

/-- The mirrored azimuth index stays inside the elevation. -/
theorem mirrorIdx_lt (cnt j : ℕ) (hj : j < cnt) : (cnt - j) % cnt < cnt :=
  Nat.mod_lt _ (by omega)

/-- Mirroring is injective on the azimuth indices of one elevation. -/
theorem mirrorIdx_inj (cnt j j' : ℕ) (hj : j < cnt) (hj' : j' < cnt) (hne : j ≠ j') :
    (cnt - j) % cnt ≠ (cnt - j') % cnt := by
  rw [mirrorIdx_val cnt j hj, mirrorIdx_val cnt j' hj']
  by_cases h0 : j = 0 <;> by_cases h0' : j' = 0 <;> simp [h0, h0'] <;> omega

/-- The mirroring writes never change a left channel. -/
theorem mirrorJ_coeff_fst (irSize off cnt j : ℕ) (d : MirrorData) (m : ℕ) :
    ((mirrorJ irSize off cnt j d).coeff m).1 = (d.coeff m).1 := by
  simp only [mirrorJ]
  split <;> rfl

/-- The mirroring writes never change a left delay. -/
theorem mirrorJ_delay_fst (irSize off cnt j : ℕ) (d : MirrorData) (m : ℕ) :
    ((mirrorJ irSize off cnt j d).delay m).1 = (d.delay m).1 := by
  simp only [mirrorJ]
  split
  · next h => rw [h]
  · rfl

/-- A single mirroring step leaves coefficients outside its target range
unchanged. -/
theorem mirrorJ_coeff_outside (irSize off cnt j : ℕ) (d : MirrorData) (m : ℕ)
    (hm : ¬((off + (cnt - j) % cnt) * irSize ≤ m ∧
            m < (off + (cnt - j) % cnt) * irSize + irSize)) :
    (mirrorJ irSize off cnt j d).coeff m = d.coeff m := by
  simp only [mirrorJ]
  rw [if_neg hm]

/-- A single mirroring step leaves delays other than its target unchanged. -/
theorem mirrorJ_delay_outside (irSize off cnt j : ℕ) (d : MirrorData) (m : ℕ)
    (hm : m ≠ off + (cnt - j) % cnt) :
    (mirrorJ irSize off cnt j d).delay m = d.delay m := by
  simp only [mirrorJ]
  rw [if_neg hm]

/-- The single mirroring step establishes the copied right-channel values at
its own target. -/
theorem mirrorJ_sets (irSize off cnt j : ℕ) (d : MirrorData) (k : ℕ) (hk : k < irSize) :
    ((mirrorJ irSize off cnt j d).coeff ((off + (cnt - j) % cnt) * irSize + k)).2 =
      (d.coeff ((off + j) * irSize + k)).1 ∧
    ((mirrorJ irSize off cnt j d).delay (off + (cnt - j) % cnt)).2 =
      (d.delay (off + j)).1 := by
  constructor
  · simp only [mirrorJ]
    rw [if_pos (by omega)]
    simp only []
    congr 2
    omega
  · simp only [mirrorJ]
    simp

/-- Left channels survive a whole azimuth fold. -/
theorem mirrorJFold_coeff_fst (irSize off cnt : ℕ) (L : List ℕ) (d : MirrorData) (m : ℕ) :
    ((mirrorJFold irSize off cnt L d).coeff m).1 = (d.coeff m).1 := by
  induction L generalizing d with
  | nil => rfl
  | cons a t ih =>
    rw [mirrorJFold, List.foldl_cons, ← mirrorJFold]
    rw [ih, mirrorJ_coeff_fst]

/-- Left delays survive a whole azimuth fold. -/
theorem mirrorJFold_delay_fst (irSize off cnt : ℕ) (L : List ℕ) (d : MirrorData) (m : ℕ) :
    ((mirrorJFold irSize off cnt L d).delay m).1 = (d.delay m).1 := by
  induction L generalizing d with
  | nil => rfl
  | cons a t ih =>
    rw [mirrorJFold, List.foldl_cons, ← mirrorJFold]
    rw [ih, mirrorJ_delay_fst]

/-- A fold of mirroring steps whose targets all avoid position `m` leaves
the coefficient pair at `m` unchanged. -/
theorem mirrorJFold_coeff_preserve (irSize off cnt : ℕ) (L : List ℕ) (d : MirrorData)
    (m : ℕ)
    (hL : ∀ j ∈ L, ¬((off + (cnt - j) % cnt) * irSize ≤ m ∧
                     m < (off + (cnt - j) % cnt) * irSize + irSize)) :
    (mirrorJFold irSize off cnt L d).coeff m = d.coeff m := by
  induction L generalizing d with
  | nil => rfl
  | cons a t ih =>
    rw [mirrorJFold, List.foldl_cons, ← mirrorJFold]
    rw [ih _ (fun j hj => hL j (List.mem_cons_of_mem a hj)),
      mirrorJ_coeff_outside _ _ _ _ _ _ (hL a (List.mem_cons_self a t))]

/-- A fold of mirroring steps whose targets all differ from IR `m` leaves
the delay pair at `m` unchanged. -/
theorem mirrorJFold_delay_preserve (irSize off cnt : ℕ) (L : List ℕ) (d : MirrorData)
    (m : ℕ) (hL : ∀ j ∈ L, m ≠ off + (cnt - j) % cnt) :
    (mirrorJFold irSize off cnt L d).delay m = d.delay m := by
  induction L generalizing d with
  | nil => rfl
  | cons a t ih =>
    rw [mirrorJFold, List.foldl_cons, ← mirrorJFold]
    rw [ih _ (fun j hj => hL j (List.mem_cons_of_mem a hj)),
      mirrorJ_delay_outside _ _ _ _ _ _ (hL a (List.mem_cons_self a t))]

/-- Any fold over in-range azimuth indices containing `j` establishes the
mirrored right-channel values for `j`, relative to the left channels at
entry (which never change). -/
theorem mirrorJFold_sets (irSize off cnt : ℕ) (L : List ℕ) (d : MirrorData)
    (j k : ℕ) (hj : j < cnt) (hk : k < irSize)
    (hrange : ∀ j' ∈ L, j' < cnt) (hmem : j ∈ L) :
    ((mirrorJFold irSize off cnt L d).coeff ((off + (cnt - j) % cnt) * irSize + k)).2 =
      (d.coeff ((off + j) * irSize + k)).1 ∧
    ((mirrorJFold irSize off cnt L d).delay (off + (cnt - j) % cnt)).2 =
      (d.delay (off + j)).1 := by
  induction L generalizing d with
  | nil => simp at hmem
  | cons a t ih =>
    rw [mirrorJFold, List.foldl_cons, ← mirrorJFold]
    by_cases hjt : j ∈ t
    · have := ih (mirrorJ irSize off cnt a d)
        (fun j' hj' => hrange j' (List.mem_cons_of_mem a hj')) hjt
      rw [this.1, this.2, mirrorJ_coeff_fst, mirrorJ_delay_fst]
      exact ⟨rfl, rfl⟩
    · have hja : j = a := by
        rcases List.mem_cons.mp hmem with h | h
        · exact h
        · exact absurd h hjt
      subst hja
      have hset := mirrorJ_sets irSize off cnt j d k hk
      constructor
      · have hpres : (mirrorJFold irSize off cnt t (mirrorJ irSize off cnt j d)).coeff
            ((off + (cnt - j) % cnt) * irSize + k) =
            (mirrorJ irSize off cnt j d).coeff ((off + (cnt - j) % cnt) * irSize + k) := by
          apply mirrorJFold_coeff_preserve
          intro j' hj'
          have hj'cnt : j' < cnt := hrange j' (List.mem_cons_of_mem j hj')
          have hj'ne : j' ≠ j := fun h => hjt (h ▸ hj')
          have hrne : (cnt - j') % cnt ≠ (cnt - j) % cnt :=
            mirrorIdx_inj cnt j' j hj'cnt hj hj'ne
          set r := (cnt - j) % cnt
          set r' := (cnt - j') % cnt
          intro hcon
          rcases Nat.lt_or_ge r' r with hlt | hge
          · have hsep : (off + r') * irSize + irSize ≤ (off + r) * irSize := by
              have h1 : (off + r') + 1 ≤ off + r := by omega
              calc (off + r') * irSize + irSize = ((off + r') + 1) * irSize := by ring
                _ ≤ (off + r) * irSize := Nat.mul_le_mul_right _ h1
            omega
          · have hgt : r < r' := by omega
            have hsep : (off + r) * irSize + irSize ≤ (off + r') * irSize := by
              have h1 : (off + r) + 1 ≤ off + r' := by omega
              calc (off + r) * irSize + irSize = ((off + r) + 1) * irSize := by ring
                _ ≤ (off + r') * irSize := Nat.mul_le_mul_right _ h1
            omega
        rw [hpres, hset.1]
      · have hpres : (mirrorJFold irSize off cnt t (mirrorJ irSize off cnt j d)).delay
            (off + (cnt - j) % cnt) =
            (mirrorJ irSize off cnt j d).delay (off + (cnt - j) % cnt) := by
          apply mirrorJFold_delay_preserve
          intro j' hj'
          have hj'cnt : j' < cnt := hrange j' (List.mem_cons_of_mem j hj')
          have hj'ne : j' ≠ j := fun h => hjt (h ▸ hj')
          have hrne : (cnt - j') % cnt ≠ (cnt - j) % cnt :=
            mirrorIdx_inj cnt j' j hj'cnt hj hj'ne
          omega
        rw [hpres, hset.2]


/-- One elevation's pass leaves coefficients below its region unchanged. -/
theorem mirrorElev_coeff_below (irSize : ℕ) (d : MirrorData) (off cnt m : ℕ)
    (hm : m < off * irSize) :
    (mirrorElev irSize d (off, cnt)).coeff m = d.coeff m := by
  show (mirrorJFold irSize off cnt (List.range cnt) d).coeff m = d.coeff m
  apply mirrorJFold_coeff_preserve
  intro j hj
  intro hcon
  have hmul : off * irSize ≤ (off + (cnt - j) % cnt) * irSize :=
    Nat.mul_le_mul_right _ (by omega)
  omega

/-- One elevation's pass leaves delays below its region unchanged. -/
theorem mirrorElev_delay_below (irSize : ℕ) (d : MirrorData) (off cnt m : ℕ)
    (hm : m < off) :
    (mirrorElev irSize d (off, cnt)).delay m = d.delay m := by
  show (mirrorJFold irSize off cnt (List.range cnt) d).delay m = d.delay m
  apply mirrorJFold_delay_preserve
  intro j hj
  omega

/-- A run of elevation passes whose regions all start above `m` leaves the
coefficient pair at `m` unchanged. -/
theorem mirrorAll_coeff_preserve (irSize : ℕ) (L : List (ℕ × ℕ)) (d : MirrorData)
    (m : ℕ) (hL : ∀ e ∈ L, m < e.1 * irSize) :
    (mirrorAll irSize L d).coeff m = d.coeff m := by
  induction L generalizing d with
  | nil => rfl
  | cons e t ih =>
    rw [mirrorAll, List.foldl_cons, ← mirrorAll]
    rw [ih _ (fun e' he' => hL e' (List.mem_cons_of_mem e he'))]
    show (mirrorElev irSize d (e.1, e.2)).coeff m = d.coeff m
    exact mirrorElev_coeff_below irSize d e.1 e.2 m (hL e (List.mem_cons_self e t))

/-- A run of elevation passes whose regions all start above IR `m` leaves
the delay pair at `m` unchanged. -/
theorem mirrorAll_delay_preserve (irSize : ℕ) (L : List (ℕ × ℕ)) (d : MirrorData)
    (m : ℕ) (hL : ∀ e ∈ L, m < e.1) :
    (mirrorAll irSize L d).delay m = d.delay m := by
  induction L generalizing d with
  | nil => rfl
  | cons e t ih =>
    rw [mirrorAll, List.foldl_cons, ← mirrorAll]
    rw [ih _ (fun e' he' => hL e' (List.mem_cons_of_mem e he'))]
    show (mirrorElev irSize d (e.1, e.2)).delay m = d.delay m
    exact mirrorElev_delay_below irSize d e.1 e.2 m (hL e (List.mem_cons_self e t))

/-- Left channels survive the whole mirroring pass. -/
theorem mirrorAll_coeff_fst (irSize : ℕ) (L : List (ℕ × ℕ)) (d : MirrorData) (m : ℕ) :
    ((mirrorAll irSize L d).coeff m).1 = (d.coeff m).1 := by
  induction L generalizing d with
  | nil => rfl
  | cons e t ih =>
    rw [mirrorAll, List.foldl_cons, ← mirrorAll]
    rw [ih]
    show ((mirrorJFold irSize e.1 e.2 (List.range e.2) d).coeff m).1 = (d.coeff m).1
    rw [mirrorJFold_coeff_fst]

/-- Left delays survive the whole mirroring pass. -/
theorem mirrorAll_delay_fst (irSize : ℕ) (L : List (ℕ × ℕ)) (d : MirrorData) (m : ℕ) :
    ((mirrorAll irSize L d).delay m).1 = (d.delay m).1 := by
  induction L generalizing d with
  | nil => rfl
  | cons e t ih =>
    rw [mirrorAll, List.foldl_cons, ← mirrorAll]
    rw [ih]
    show ((mirrorJFold irSize e.1 e.2 (List.range e.2) d).delay m).1 = (d.delay m).1
    rw [mirrorJFold_delay_fst]

/-- Offsets of an offset-consistent table never drop below the base. -/
theorem offsetsFrom_mono (b : ℕ) (L : List (ℕ × ℕ)) (h : offsetsFrom b L) :
    ∀ e ∈ L, b ≤ e.1 := by
  induction L generalizing b with
  | nil => intro e he; simp at he
  | cons a t ih =>
    obtain ⟨ha, ht⟩ := h
    intro e he
    rcases List.mem_cons.mp he with rfl | he'
    · omega
    · have := ih (b + a.2) ht e he'
      omega

/-- Splitting an offset-consistent table: the tail after a prefix is
consistent from the base advanced by the prefix's azimuth counts. -/
theorem offsetsFrom_split (b : ℕ) (L1 L2 : List (ℕ × ℕ))
    (h : offsetsFrom b (L1 ++ L2)) :
    offsetsFrom (b + (L1.map Prod.snd).sum) L2 := by
  induction L1 generalizing b with
  | nil => simpa using h
  | cons a t ih =>
    obtain ⟨_, hrest⟩ := h
    have := ih (b + a.2) hrest
    have harith : b + a.2 + (t.map Prod.snd).sum = b + ((a :: t).map Prod.snd).sum := by
      simp
      omega
    rw [← harith]
    exact this

/-- C5: after the left-to-right mirroring pass over an offset-consistent
elevation table, for every elevation `(evoffset, azcount)` of the table,
every azimuth index `j < azcount` and every coefficient index `k < irSize`,
the right-channel coefficient and right delay at IR index
`evoffset + ((azcount - j) % azcount)` equal the left-channel coefficient
and left delay at IR index `evoffset + j`. -/
theorem mirrorAll_right_eq_left (irSize : ℕ) (elevs : List (ℕ × ℕ)) (d : MirrorData)
    (b : ℕ) (hcons : offsetsFrom b elevs) (off cnt j k : ℕ)
    (hmem : (off, cnt) ∈ elevs) (hj : j < cnt) (hk : k < irSize) :
    ((mirrorAll irSize elevs d).coeff ((off + (cnt - j) % cnt) * irSize + k)).2 =
      ((mirrorAll irSize elevs d).coeff ((off + j) * irSize + k)).1 ∧
    ((mirrorAll irSize elevs d).delay (off + (cnt - j) % cnt)).2 =
      ((mirrorAll irSize elevs d).delay (off + j)).1 := by
  obtain ⟨E1, E2, hsplit⟩ := List.append_of_mem hmem
  subst hsplit
  have hsplit2 := offsetsFrom_split b E1 ((off, cnt) :: E2) hcons
  obtain ⟨hoff, hrest⟩ := hsplit2
  have hE2 : ∀ e ∈ E2, off + cnt ≤ e.1 := by
    intro e he
    have := offsetsFrom_mono _ E2 hrest e he
    omega
  have hr : (cnt - j) % cnt < cnt := mirrorIdx_lt cnt j hj
  rw [mirrorAll, List.foldl_append, List.foldl_cons]
  have hd2 : List.foldl (mirrorElev irSize) d E1 = mirrorAll irSize E1 d := rfl
  rw [hd2]
  set d1 := mirrorAll irSize E1 d with hd1
  set d2 := mirrorElev irSize d1 (off, cnt) with hd2def
  have hfold : List.foldl (mirrorElev irSize) d2 E2 = mirrorAll irSize E2 d2 := rfl
  rw [hfold]
  have hset := mirrorJFold_sets irSize off cnt (List.range cnt) d1 j k hj hk
    (fun j' hj' => List.mem_range.mp hj') (List.mem_range.mpr hj)
  have hcb : ((off + (cnt - j) % cnt) * irSize + k) < (off + cnt) * irSize := by
    have h1 : (off + (cnt - j) % cnt) * irSize + k <
        ((off + (cnt - j) % cnt) + 1) * irSize := by
      have : ((off + (cnt - j) % cnt) + 1) * irSize =
          (off + (cnt - j) % cnt) * irSize + irSize := by ring
      omega
    have h2 : ((off + (cnt - j) % cnt) + 1) * irSize ≤ (off + cnt) * irSize :=
      Nat.mul_le_mul_right _ (by omega)
    omega
  have hpc : (mirrorAll irSize E2 d2).coeff ((off + (cnt - j) % cnt) * irSize + k) =
      d2.coeff ((off + (cnt - j) % cnt) * irSize + k) := by
    apply mirrorAll_coeff_preserve
    intro e he
    have h3 : (off + cnt) * irSize ≤ e.1 * irSize :=
      Nat.mul_le_mul_right _ (hE2 e he)
    omega
  have hpd : (mirrorAll irSize E2 d2).delay (off + (cnt - j) % cnt) =
      d2.delay (off + (cnt - j) % cnt) := by
    apply mirrorAll_delay_preserve
    intro e he
    have := hE2 e he
    omega
  constructor
  · calc ((mirrorAll irSize E2 d2).coeff ((off + (cnt - j) % cnt) * irSize + k)).2
        = (d2.coeff ((off + (cnt - j) % cnt) * irSize + k)).2 := by rw [hpc]
      _ = (d1.coeff ((off + j) * irSize + k)).1 := hset.1
      _ = ((mirrorAll irSize E2 d2).coeff ((off + j) * irSize + k)).1 := by
          conv_rhs => rw [mirrorAll_coeff_fst]
          show (d1.coeff ((off + j) * irSize + k)).1 =
            ((mirrorJFold irSize off cnt (List.range cnt) d1).coeff
              ((off + j) * irSize + k)).1
          rw [mirrorJFold_coeff_fst]
  · calc ((mirrorAll irSize E2 d2).delay (off + (cnt - j) % cnt)).2
        = (d2.delay (off + (cnt - j) % cnt)).2 := by rw [hpd]
      _ = (d1.delay (off + j)).1 := hset.2
      _ = ((mirrorAll irSize E2 d2).delay (off + j)).1 := by
          conv_rhs => rw [mirrorAll_delay_fst]
          show (d1.delay (off + j)).1 =
            ((mirrorJFold irSize off cnt (List.range cnt) d1).delay (off + j)).1
          rw [mirrorJFold_delay_fst]

/-- Witness for C5: elevation table `[(0,2),(2,3)]`, second elevation,
azimuth index 1, coefficient index 1. -/
theorem mirrorAll_right_eq_left_witness :
    (offsetsFrom 0 [(0, 2), (2, 3)] ∧ (2, 3) ∈ [(0, 2), (2, 3)] ∧ 1 < 3 ∧ 1 < 2) ∧
    (((mirrorAll 2 [(0, 2), (2, 3)] exMirrorData).coeff ((2 + (3 - 1) % 3) * 2 + 1)).2 =
      ((mirrorAll 2 [(0, 2), (2, 3)] exMirrorData).coeff ((2 + 1) * 2 + 1)).1 ∧
     ((mirrorAll 2 [(0, 2), (2, 3)] exMirrorData).delay (2 + (3 - 1) % 3)).2 =
      ((mirrorAll 2 [(0, 2), (2, 3)] exMirrorData).delay (2 + 1)).1) :=
  ⟨⟨⟨rfl, rfl, trivial⟩, by decide, by decide, by decide⟩,
   mirrorAll_right_eq_left 2 [(0, 2), (2, 3)] exMirrorData 0 ⟨rfl, rfl, trivial⟩
     2 3 1 1 (by decide) (by decide) (by decide)⟩


/-- Success of one field parse forces the distance strictly after the
threaded previous distance. -/
theorem parseField02_mono (prev : Option ℕ) (bs : Bytes) (f : FieldRec) (bs' : Bytes)
    (h : parseField02 prev bs = some (f, bs')) :
    ∀ p, prev = some p → p < f.distanceMm := by
  intro p hp
  subst hp
  simp only [parseField02, bind, Option.bind_eq_some] at h
  obtain ⟨⟨dist, bs1⟩, h1, h⟩ := h
  obtain ⟨⟨evCnt, bs2⟩, h2, h⟩ := h
  split at h
  · exact absurd h (by simp)
  · split at h
    · exact absurd h (by simp)
    · next hprev =>
      split at h
      · exact absurd h (by simp)
      · simp only [bind, Option.bind_eq_some] at h
        obtain ⟨⟨azs, bs3⟩, h3, h⟩ := h
        split at h
        · simp only [Option.some.injEq, Prod.mk.injEq] at h
          have hle : ¬ (dist ≤ p) := by simpa using hprev
          have hlt : p < dist := Nat.lt_of_not_le hle
          rw [← h.1]
          simpa using hlt
        · exact absurd h (by simp)

/-- Success of one field parse fixes nothing about the previous distance
when absent, and the parsed distances of a field run form a chain strictly
above the threaded previous distance. -/
theorem parseFields02_chain (n : ℕ) :
    ∀ (prev : Option ℕ) (bs : Bytes) (fs : List FieldRec) (rest : Bytes),
    parseFields02 prev n bs = some (fs, rest) →
    optChain prev (fs.map FieldRec.distanceMm) := by
  induction n with
  | zero =>
    intro prev bs fs rest h
    simp only [parseFields02, Option.some.injEq, Prod.mk.injEq] at h
    obtain ⟨rfl, _⟩ := h
    cases prev with
    | none =>
      simp only [optChain, List.map_nil]
      exact List.chain'_nil
    | some p =>
      simp only [optChain, List.map_nil]
      exact List.Chain.nil
  | succ n ih =>
    intro prev bs fs rest h
    simp only [parseFields02, bind, Option.bind_eq_some] at h
    obtain ⟨⟨f, bs1⟩, hf, h⟩ := h
    obtain ⟨⟨fs', bs2⟩, hfs, h⟩ := h
    simp only [Option.some.injEq, Prod.mk.injEq] at h
    obtain ⟨rfl, _⟩ := h
    have htail : List.Chain (· < ·) f.distanceMm (fs'.map FieldRec.distanceMm) :=
      ih (some f.distanceMm) bs1 fs' bs2 hfs
    cases prev with
    | none => exact htail
    | some p =>
      exact List.Chain.cons (parseField02_mono (some p) bs f bs1 hf p rfl) htail

/-- A field run parses exactly as many fields as requested. -/
theorem parseFields02_length (n : ℕ) :
    ∀ (prev : Option ℕ) (bs : Bytes) (fs : List FieldRec) (rest : Bytes),
    parseFields02 prev n bs = some (fs, rest) → fs.length = n := by
  induction n with
  | zero =>
    intro prev bs fs rest h
    simp only [parseFields02, Option.some.injEq, Prod.mk.injEq] at h
    obtain ⟨rfl, _⟩ := h
    rfl
  | succ n ih =>
    intro prev bs fs rest h
    simp only [parseFields02, bind, Option.bind_eq_some] at h
    obtain ⟨⟨f, bs1⟩, hf, h⟩ := h
    obtain ⟨⟨fs', bs2⟩, hfs, h⟩ := h
    simp only [Option.some.injEq, Prod.mk.injEq] at h
    obtain ⟨rfl, _⟩ := h
    simp [ih (some f.distanceMm) bs1 fs' bs2 hfs]

/-- The built store's millimetre distance table is the parsed per-field
list, reversed exactly when the file has more than one field. -/
theorem buildStore02_distances (rate sampleType channelType irSize fdCount : ℕ)
    (fields : List FieldRec) (bs : Bytes) (st : Store02)
    (h : buildStore02 rate sampleType channelType irSize fdCount fields bs = some st) :
    st.distancesMm = if 1 < fdCount then (fields.map FieldRec.distanceMm).reverse
      else fields.map FieldRec.distanceMm := by
  simp only [buildStore02, bind, Option.bind_eq_some] at h
  obtain ⟨⟨cs0, ds0, rest⟩, hread, h⟩ := h
  split at h
  · next hfd =>
    simp only [Option.some.injEq] at h
    rw [← h, if_pos hfd]
  · next hfd =>
    simp only [Option.some.injEq] at h
    rw [← h, if_neg hfd]

/-- C2 (amended): for every byte stream, the field distances of the store
built by `LoadHrtf02` (empty when loading fails) are strictly decreasing
across the field table: the loader validates the file's distances as
strictly increasing and then reverses the field order when `fdCount > 1`,
while a single-field table is trivially monotone. -/
theorem LoadHrtf02_distances_strictly_decreasing (bs : Bytes) :
    List.Chain' (· > ·) ((LoadHrtf02 bs).elim [] Store02.fieldDistances) := by
  cases h : LoadHrtf02 bs with
  | none => exact List.chain'_nil
  | some st =>
    show List.Chain' (· > ·) st.fieldDistances
    simp only [LoadHrtf02, bind, Option.bind_eq_some] at h
    obtain ⟨⟨rate, bs1⟩, h1, h⟩ := h
    obtain ⟨⟨sampleType, bs2⟩, h2, h⟩ := h
    obtain ⟨⟨channelType, bs3⟩, h3, h⟩ := h
    obtain ⟨⟨irSize, bs4⟩, h4, h⟩ := h
    obtain ⟨⟨fdCount, bs5⟩, h5, h⟩ := h
    split at h
    · exact absurd h (by simp)
    · split at h
      · exact absurd h (by simp)
      · split at h
        · exact absurd h (by simp)
        · split at h
          · exact absurd h (by simp)
          · next hfdr =>
            simp only [bind, Option.bind_eq_some] at h
            obtain ⟨⟨fields, bs6⟩, hfs, hbuild⟩ := h
            have hchain : List.Chain' (· < ·) (fields.map FieldRec.distanceMm) :=
              parseFields02_chain fdCount none bs5 fields bs6 hfs
            have hlen : fields.length = fdCount :=
              parseFields02_length fdCount none bs5 fields bs6 hfs
            have hdm := buildStore02_distances rate sampleType channelType irSize
              fdCount fields bs6 st hbuild
            have hconv : ∀ (l : List ℕ), List.Chain' (· > ·) l →
                List.Chain' (· > ·) (l.map (fun d : ℕ => (d : ℚ) / 1000)) := by
              intro l hl
              rw [List.chain'_map]
              refine hl.imp ?_
              intro a b hab
              exact (div_lt_div_iff_of_pos_right (by norm_num)).mpr
                (Nat.cast_lt.mpr hab)
            unfold Store02.fieldDistances
            rw [hdm]
            by_cases hfd : 1 < fdCount
            · rw [if_pos hfd]
              apply hconv
              rw [List.chain'_reverse]
              exact hchain.imp (fun a b hab => hab)
            · rw [if_neg hfd]
              have hfd1 : fdCount = 1 := by
                have hne0 : ¬ fdCount = 0 ∧ fdCount ≤ MAX_FD_COUNT := by simpa using hfdr
                omega
              obtain ⟨f1, hf1⟩ := List.length_eq_one.mp (hlen.trans hfd1)
              rw [hf1]
              simp

set_option maxRecDepth 4000 in
/-- C2 counterexample: a well-formed two-field V2 stream with in-file
distances 100 mm then 200 mm loads successfully, and the built store's
field distance table is `[0.2, 0.1]` metres — not strictly increasing. -/
theorem LoadHrtf02_distances_not_increasing :
    (LoadHrtf02 exBytesC2).map Store02.distancesMm = some [200, 100] ∧
    ¬ List.Chain' (· < ·) ((LoadHrtf02 exBytesC2).elim [] Store02.fieldDistances) := by
  have hmm : (LoadHrtf02 exBytesC2).map Store02.distancesMm = some [200, 100] := by rfl
  refine ⟨hmm, ?_⟩
  obtain ⟨st, hst, hdm⟩ := Option.map_eq_some'.mp hmm
  rw [hst]
  show ¬ List.Chain' (· < ·) st.fieldDistances
  unfold Store02.fieldDistances
  rw [hdm]
  intro hcon
  rw [List.map_cons, List.map_cons, List.map_nil, List.chain'_cons] at hcon
  have := hcon.1
  norm_num at this


/-- C8: whenever `GetLoadedHrtf` returns null — enumeration miss, missing
or unopenable file, absent resource, short or unknown magic, or a loader
failure — the cache it returns is exactly the cache it was given: no entry
is inserted and no existing entry is modified.  (On a cache hit the result
is never null, so the hypothesis confines this to the post-miss failure
paths.) -/
theorem GetLoadedHrtf_failure_preserves_cache (env : LoadEnv)
    (cache : List LoadedHrtf) (name : List Char) (devrate : ℕ)
    (h : (GetLoadedHrtf env cache name devrate).1 = none) :
    (GetLoadedHrtf env cache name devrate).2 = cache := by
  revert h
  unfold GetLoadedHrtf
  split
  · intro _
    rfl
  · split
    · intro h
      exact absurd h (by simp)
    · split
      · intro _
        rfl
      · split
        · intro _
          rfl
        · split
          · intro _
            rfl
          · intro h
            exact absurd h (by simp)

/-- Witness for C8: the enumerated file holds only three bytes, so the
load fails after the cache miss and the single-entry cache is returned
untouched. -/
theorem GetLoadedHrtf_failure_preserves_cache_witness :
    (GetLoadedHrtf exEnvC8 exCacheC8 ['F', 'o', 'o'] 44100).1 = none ∧
    (GetLoadedHrtf exEnvC8 exCacheC8 ['F', 'o', 'o'] 44100).2 = exCacheC8 :=
  ⟨rfl, GetLoadedHrtf_failure_preserves_cache exEnvC8 exCacheC8 ['F', 'o', 'o'] 44100 rfl⟩

end Hrtf
